import Mathlib

/-!
Shallow embedding of `pypreprocess/cluster_level_analysis.py`.

Modelling conventions:
* Python floats are modelled as `ℚ` (all arithmetic in the source is
  exact on the inputs we reason about); `np.infty` is the `⊤` element of
  `WithTop ℚ`.
* `scipy.stats.norm.sf` / `norm.isf` are transcendental library functions;
  they are taken as parameters `sf isf : ℚ → ℚ` of every definition that
  uses them.  Theorems that need facts about the real survival function
  state them as hypotheses (antitone, values in `[0, 1]`), which hold for
  the standard normal survival function.  `norm.sf (np.infty) = 0` is
  baked into `sfT`.
* `np.sort` / `np.argsort` are modelled as stable sorts (ties keep the
  original index order), realised by `List.insertionSort` on
  (value, index) pairs ordered lexicographically.
* `np.searchsorted(a, v)` (default `side='left'`) on a sorted array `a`
  returns the number of leading entries `< v`.
* 3-D arrays are functions on `Fin n₁ × Fin n₂ × Fin n₃`; raster (C)
  order, the order of `np.where` and of boolean indexing, is the
  lexicographic order of `allSites`.
* `scipy.ndimage.label` (an external collaborator) is reimplemented as a
  raster-scan flood fill with the default face-connectivity structuring
  element; components are numbered 1.. in order of first raster
  occurrence, background is 0.
* `scipy.ndimage.maximum_filter(a, 3)` (default mode `reflect`) at a cell
  equals the maximum of `a` over the in-bounds Chebyshev-radius-1 window,
  because reflection only repeats in-bounds values for a size-3 window.
* Python dictionaries for the `nulls` argument become the `Nulls`
  structure (`none` = key absent); the in-place default-filling mutation
  of the caller's dict is modelled by returning the post-call dictionary
  state alongside the result.
* The `TypeError` raised by `clusters['zscore']` (line 150 of the source)
  and Python exceptions in general are modelled with `Except String`.
-/

/-- Builds `np.linspace a b n`: `n` evenly spaced values from `a` to `b`
inclusive (`n = 1` gives `[a]`, as in numpy). -/
def linspace (a b : ℚ) (n : ℕ) : List ℚ :=
  if n = 1 then [a]
  else (List.range n).map (fun i : ℕ => a + (i : ℚ) * ((b - a) / ((n : ℚ) - 1)))

/-- Running minimum from the tail: `suffixMin l` at position `i` is the
minimum of `l` over positions `≥ i`.  This is the backwards sweep
`for i in range(n-1, 0, -1): fdr[i-1] = min(fdr[i-1], fdr[i])`. -/
def suffixMin : List ℚ → List ℚ
  | [] => []
  | a :: t =>
    match suffixMin t with
    | [] => [a]
    | b :: r => min a b :: b :: r

/-- Models numpy boolean-mask indexing `as[bs]`: keeps the entries of `as`
whose flag in `bs` is `true` (positionally zipped). -/
def boolIdx {α : Type} (as : List α) (bs : List Bool) : List α :=
  ((as.zip bs).filter (fun p => p.2)).map Prod.fst

/-- Lexicographic order on (index, key) pairs: by key, ties by index.
Sorting by this order realises a stable ascending sort by key. -/
def keyRel : (ℕ × ℚ) → (ℕ × ℚ) → Prop := fun a b =>
  a.2 < b.2 ∨ (a.2 = b.2 ∧ a.1 ≤ b.1)

instance : DecidableRel keyRel := fun _ _ =>
  inferInstanceAs (Decidable (_ ∨ _))

instance : IsTotal (ℕ × ℚ) keyRel := by
  constructor
  intro a b
  rcases lt_trichotomy a.2 b.2 with h | h | h
  · exact Or.inl (Or.inl h)
  · rcases Nat.le_total a.1 b.1 with h1 | h1
    · exact Or.inl (Or.inr ⟨h, h1⟩)
    · exact Or.inr (Or.inr ⟨h.symm, h1⟩)
  · exact Or.inr (Or.inl h)

instance : IsTrans (ℕ × ℚ) keyRel := by
  constructor
  rintro a b c (h | ⟨h, h1⟩) (h2 | ⟨h2, h3⟩)
  · exact Or.inl (h.trans h2)
  · exact Or.inl (h2 ▸ h)
  · exact Or.inl (h ▸ h2)
  · exact Or.inr ⟨h.trans h2, h1.trans h3⟩

/-- Models `np.argsort ks` (stable): the list of indices `0..n-1`
reordered so that the corresponding keys are ascending, ties keeping the
original index order. -/
def argsortAsc (ks : List ℚ) : List ℕ :=
  (List.insertionSort keyRel ((List.range ks.length).zip ks)).map Prod.fst

/-- Models `vals.argsort()[::-1]` (line 138 of the source): the stable
ascending argsort, reversed. -/
def descIdx (vals : List ℚ) : List ℕ := (argsortAsc vals).reverse

/-- The descending-order relation used to model `-np.sort(-z)`. -/
def descRel : ℚ → ℚ → Prop := fun a b => b ≤ a

instance : DecidableRel descRel := fun a b =>
  inferInstanceAs (Decidable (b ≤ a))

instance : IsTotal ℚ descRel := ⟨fun a b => le_total b a⟩

instance : IsTrans ℚ descRel := ⟨fun _ _ _ h h2 => le_trans h2 h⟩

instance : IsAntisymm ℚ descRel := ⟨fun _ _ h h2 => le_antisymm h2 h⟩

/-- Models `-np.sort(-z)`: the values of `z` in descending order. -/
def sortDesc (z : List ℚ) : List ℚ := List.insertionSort descRel z

/-- Entries of `z_vals_` (descending-sorted input) whose survival-function
p-value is strictly below the matching entry of
`alpha * np.linspace(.5/n, 1-.5/n, n)`: the boolean mask `pos` of
`fdr_threshold`, realised as the selected values. -/
def selectedOf (sf : ℚ → ℚ) (z_vals : List ℚ) (alpha : ℚ) : List ℚ :=
  let z_vals_ := sortDesc z_vals
  let p_vals := z_vals_.map sf
  let n_samples := p_vals.length
  let comp := (linspace ((1 : ℚ) / 2 / n_samples) (1 - (1 : ℚ) / 2 / n_samples)
    n_samples).map (fun x => alpha * x)
  let pos := List.zipWith (fun pv c => decide (pv < c)) p_vals comp
  boolIdx z_vals_ pos

/-- Embedding of `fdr_threshold(z_vals, alpha)`: the Benjamini–Hochberg
threshold.  Returns `z_vals_[pos][-1] - 1e-8` when some entry of `pos` is
set, `np.infty` (`⊤`) otherwise. -/
def fdr_threshold (sf : ℚ → ℚ) (z_vals : List ℚ) (alpha : ℚ) : WithTop ℚ :=
  match (selectedOf sf z_vals alpha).getLast? with
  | some v => ((v - 1 / 100000000 : ℚ) : WithTop ℚ)
  | none => ⊤

/-- Version of `fdr_threshold` written from the words of the claim
"returns the statistic value of the largest-statistic entry whose p-value
is below its corresponding comparison value, minus a small epsilon": the
largest-statistic qualifying entry is the first selected value in the
descending order. -/
def fdr_threshold_claim (sf : ℚ → ℚ) (z_vals : List ℚ) (alpha : ℚ) :
    WithTop ℚ :=
  match (selectedOf sf z_vals alpha).head? with
  | some v => ((v - 1 / 100000000 : ℚ) : WithTop ℚ)
  | none => ⊤

/-- The core of `fdr_pvalues` acting on the descending-sorted values:
`np.minimum(1, p_vals / np.linspace(1/n, 1, n))` followed by the
backwards running-minimum sweep. -/
def fdrCore (sf : ℚ → ℚ) (zs : List ℚ) : List ℚ :=
  let n_samples := zs.length
  let p_vals := zs.map sf
  suffixMin (List.zipWith (fun p d => min 1 (p / d)) p_vals
    (linspace (1 / (n_samples : ℚ)) 1 n_samples))

/-- Embedding of `fdr_pvalues(z_vals)`: step-up FDR-corrected p-values,
returned in the original input order (`fdr[inv_order]`, where
`inv_order[order] = arange(n)`). -/
def fdr_pvalues (sf : ℚ → ℚ) (z_vals : List ℚ) : List ℚ :=
  let order := argsortAsc (z_vals.map Neg.neg)
  let fdr := fdrCore sf (order.map (fun i => z_vals.getD i 0))
  (List.range z_vals.length).map (fun i => fdr.getD (order.indexOf i) 0)

/-- Models `np.searchsorted(sorted, v)` (default `side='left'`) on an
ascending-sorted list: the number of leading entries `< v`. -/
def searchsortedLeft (sorted : List ℚ) (v : ℚ) : ℕ :=
  (sorted.takeWhile (fun x => decide (x < v))).length

/-- Embedding of `empirical_pvalue(z_score, ref)`:
`1 - searchsorted(np.sort(ref), z_score) / ref.size`. -/
def empirical_pvalue (z_score : ℚ) (ref : List ℚ) : ℚ :=
  1 - (searchsortedLeft (List.insertionSort (· ≤ ·) ref) z_score : ℚ) /
    (ref.length : ℚ)

instance {ε α : Type} [DecidableEq ε] [DecidableEq α] :
    DecidableEq (Except ε α) := fun a b =>
  match a, b with
  | Except.error e, Except.error f => decidable_of_iff (e = f) (by simp)
  | Except.ok x, Except.ok y => decidable_of_iff (x = y) (by simp)
  | Except.error _, Except.ok _ => isFalse (by simp)
  | Except.ok _, Except.error _ => isFalse (by simp)

/-- Grid positions of an `n₁ × n₂ × n₃` voxel array. -/
abbrev Site (n₁ n₂ n₃ : ℕ) : Type := Fin n₁ × Fin n₂ × Fin n₃

/-- All grid positions in raster (C) order: the iteration order of
`np.where` and of numpy boolean indexing. -/
def allSites (n₁ n₂ n₃ : ℕ) : List (Site n₁ n₂ n₃) :=
  (List.finRange n₁).flatMap (fun i =>
    (List.finRange n₂).flatMap (fun j =>
      (List.finRange n₃).map (fun k => (i, j, k))))

/-- Face adjacency: the default structuring element of
`scipy.ndimage.label` (connectivity 1) connects cells that differ by
exactly one step along exactly one axis. -/
def faceAdj {n₁ n₂ n₃ : ℕ} (s t : Site n₁ n₂ n₃) : Bool :=
  ((s.1 : ℤ) - (t.1 : ℤ)).natAbs + ((s.2.1 : ℤ) - (t.2.1 : ℤ)).natAbs +
    ((s.2.2 : ℤ) - (t.2.2 : ℤ)).natAbs == 1

/-- Chebyshev-radius-1 window membership (includes the centre): the
footprint of `maximum_filter(·, 3)`. -/
def chebNear {n₁ n₂ n₃ : ℕ} (s t : Site n₁ n₂ n₃) : Bool :=
  ((s.1 : ℤ) - (t.1 : ℤ)).natAbs ≤ 1 &&
    ((s.2.1 : ℤ) - (t.2.1 : ℤ)).natAbs ≤ 1 &&
    ((s.2.2 : ℤ) - (t.2.2 : ℤ)).natAbs ≤ 1

/-- In-bounds face neighbours of a cell. -/
def neighborsOf {n₁ n₂ n₃ : ℕ} (s : Site n₁ n₂ n₃) : List (Site n₁ n₂ n₃) :=
  (allSites n₁ n₂ n₃).filter (fun t => faceAdj s t)

/-- Breadth-first flood fill assigning component id `id` to every
foreground cell reachable from the queue; `fuel` bounds the number of
queue pops (chosen large enough to exhaust any queue). -/
def flood {n₁ n₂ n₃ : ℕ} (fg : Site n₁ n₂ n₃ → Bool) (id : ℕ) :
    ℕ → List (Site n₁ n₂ n₃) → (Site n₁ n₂ n₃ → ℕ) → Site n₁ n₂ n₃ → ℕ
  | 0, _, lab => lab
  | _ + 1, [], lab => lab
  | fuel + 1, s :: queue, lab =>
    if fg s && lab s == 0 then
      flood fg id fuel
        (queue ++ (neighborsOf s).filter (fun t => fg t && lab t == 0))
        (Function.update lab s id)
    else
      flood fg id fuel queue lab

/-- One step of the raster scan of the labelling pass: when an unlabelled
foreground cell is met, flood its connected component with the next free
component id. -/
def labelStep {n₁ n₂ n₃ : ℕ} (fg : Site n₁ n₂ n₃ → Bool)
    (st : (Site n₁ n₂ n₃ → ℕ) × ℕ) (s : Site n₁ n₂ n₃) :
    (Site n₁ n₂ n₃ → ℕ) × ℕ :=
  if fg s && st.1 s == 0 then
    (flood fg st.2 ((allSites n₁ n₂ n₃).length * 27 + 27) [s] st.1, st.2 + 1)
  else st

/-- Models `scipy.ndimage.label(fg)` with the default (face)
connectivity: returns the label field (0 = background, components
numbered from 1 in order of first raster occurrence) and the next free
id (so the component count is this minus 1). -/
def labelAll {n₁ n₂ n₃ : ℕ} (fg : Site n₁ n₂ n₃ → Bool) :
    (Site n₁ n₂ n₃ → ℕ) × ℕ :=
  (allSites n₁ n₂ n₃).foldl (labelStep fg) (fun _ => 0, 1)

/-- Models `maximum_filter(above_values, 3)` at a cell: the maximum of
the field over the in-bounds Chebyshev-radius-1 window (the default
`reflect` boundary mode only repeats in-bounds values for a size-3
window, so the value set is the clipped window). -/
def windowMax {n₁ n₂ n₃ : ℕ} (av : Site n₁ n₂ n₃ → ℚ) (s : Site n₁ n₂ n₃) : ℚ :=
  (((allSites n₁ n₂ n₃).filter (fun t => chebNear s t)).map av).foldl max (av s)

/-- Models the local-maximum test
`above_values == np.maximum(z_threshold, maximum_filter(above_values, 3))`
at one cell. -/
def maximaMask {n₁ n₂ n₃ : ℕ} (z_threshold : WithTop ℚ)
    (av : Site n₁ n₂ n₃ → ℚ) (s : Site n₁ n₂ n₃) : Bool :=
  decide ((av s : WithTop ℚ) = max z_threshold (windowMax av s))

/-- Possible values of one entry of the Python `nulls` dictionary: a
string tag, a numpy array, or Python `None`. -/
inductive NullsVal : Type
  | str (s : String)
  | arr (a : List ℚ)
  | noneVal
  deriving DecidableEq

/-- The `nulls` dictionary: `none` in a field means the key is absent. -/
structure Nulls : Type where
  zmax : Option NullsVal
  smax : Option NullsVal
  s : Option NullsVal
  deriving DecidableEq

/-- The in-place default filling performed by `cluster_stats` on the
caller's `nulls` dictionary (lines 120–125 of the source): absent keys
are inserted with defaults `'bonferroni'`, `None`, `None`. -/
def fillNulls (n : Nulls) : Nulls :=
  { zmax := some (n.zmax.getD (NullsVal.str "bonferroni"))
    smax := some (n.smax.getD NullsVal.noneVal)
    s := some (n.s.getD NullsVal.noneVal) }

/-- One cluster record of the output list. -/
structure Cluster : Type where
  size : ℕ
  maxima : List (ℚ × ℚ × ℚ)
  zscore : List ℚ
  fdr_pvalue : List ℚ
  pvalue : List ℚ
  fwer_pvalue : Option (List ℚ)
  cluster_fwer_pvalue : Option ℚ
  cluster_pvalue : Option ℚ
  deriving DecidableEq

/-- The `info` record of the output. -/
structure Info : Type where
  n_voxels : ℕ
  threshold_z : WithTop ℚ
  threshold_p : ℚ
  threshold_pcorr : ℚ
  deriving DecidableEq

/-- An all-empty cluster record, used only as the (never hit) default of
positional indexing. -/
def emptyCluster : Cluster :=
  ⟨0, [], [], [], [], none, none, none⟩

/-- Ordering on (position, cluster) pairs written from the claim's words
"sorted by descending size with ties keeping first-encountered-label
order": larger size first, equal sizes kept in original position order. -/
def sizeIdxRel : (ℕ × Cluster) → (ℕ × Cluster) → Prop := fun a b =>
  b.2.size < a.2.size ∨ (a.2.size = b.2.size ∧ a.1 ≤ b.1)

instance : DecidableRel sizeIdxRel := fun _ _ =>
  inferInstanceAs (Decidable (_ ∨ _))

/-- Stable descending-size sort written from the claim's words: pair
each cluster with its position in the first-encountered-label order,
sort by descending size with ties keeping the original position order,
and drop the positions.  To be compared with the sort the source
performs (`np.argsort` of the negated sizes, then gather). -/
def stableSortBySize (cs : List Cluster) : List Cluster :=
  (List.insertionSort sizeIdxRel ((List.range cs.length).zip cs)).map Prod.snd

/-- The voxel-level FWER correction branch of the cluster loop
(lines 145–150 of the source).  When `nulls['zmax']` is an array the
source evaluates `clusters['zscore']` — indexing the Python list
`clusters` with a string — which raises a `TypeError`. -/
def fwerOf (zmaxEntry : Option NullsVal) (p_values : List ℚ) (n_voxels : ℕ) :
    Except String (Option (List ℚ)) :=
  match zmaxEntry with
  | some (NullsVal.str tag) =>
    if tag = "bonferroni" then
      Except.ok (some (p_values.map (fun p => min 1 (p * (n_voxels : ℚ)))))
    else Except.ok none
  | some (NullsVal.arr _) => Except.error "TypeError"
  | _ => Except.ok none

/-- The body of the cluster loop for component `k` (0-based; the
component's label value is `k + 1`): returns the assembled cluster
record when it meets the size threshold, `none` when it does not, and
propagates the `TypeError` of the FWER branch. -/
def buildCluster {n₁ n₂ n₃ : ℕ} (sf : ℚ → ℚ) (n_voxels : ℕ)
    (cluster_threshold : ℚ) (nulls' : Nulls) (labels : Site n₁ n₂ n₃ → ℕ)
    (above_values : Site n₁ n₂ n₃ → ℚ)
    (transform : Site n₁ n₂ n₃ → ℚ × ℚ × ℚ)
    (maximaSites : List (Site n₁ n₂ n₃)) (max_fdr_pvalues : List ℚ)
    (k : ℕ) : Except String (Option Cluster) :=
  let cluster_size :=
    ((allSites n₁ n₂ n₃).filter (fun s => labels s == k + 1)).length
  if cluster_threshold ≤ (cluster_size : ℚ) then
    let in_cluster : List Bool := maximaSites.map (fun s => labels s == k + 1)
    let max_vals := boolIdx (maximaSites.map above_values) in_cluster
    let sortedIdx := descIdx max_vals
    let z_score := sortedIdx.map (fun i => max_vals.getD i 0)
    let p_values := z_score.map sf
    match fwerOf nulls'.zmax p_values n_voxels with
    | Except.error e => Except.error e
    | Except.ok fwer =>
      Except.ok (some
        { size := cluster_size
          maxima := sortedIdx.map (fun i =>
            (boolIdx (maximaSites.map transform) in_cluster).getD i (0, 0, 0))
          zscore := z_score
          fdr_pvalue := sortedIdx.map (fun i =>
            (boolIdx max_fdr_pvalues in_cluster).getD i 0)
          pvalue := p_values
          fwer_pvalue := fwer
          cluster_fwer_pvalue :=
            match nulls'.smax with
            | some (NullsVal.arr a) =>
              some (empirical_pvalue (cluster_size : ℚ) a)
            | _ => none
          cluster_pvalue :=
            match nulls'.s with
            | some (NullsVal.arr a) =>
              some (empirical_pvalue (cluster_size : ℚ) a)
            | _ => none })
  else Except.ok none

/-- The cluster loop `for k in range(n_labels)`, collecting qualifying
cluster records and propagating the first raised exception. -/
def buildClusters {n₁ n₂ n₃ : ℕ} (sf : ℚ → ℚ) (n_voxels : ℕ)
    (cluster_threshold : ℚ) (nulls' : Nulls) (labels : Site n₁ n₂ n₃ → ℕ)
    (above_values : Site n₁ n₂ n₃ → ℚ)
    (transform : Site n₁ n₂ n₃ → ℚ × ℚ × ℚ)
    (maximaSites : List (Site n₁ n₂ n₃)) (max_fdr_pvalues : List ℚ) :
    List ℕ → Except String (List Cluster)
  | [] => Except.ok []
  | k :: ks =>
    match buildCluster sf n_voxels cluster_threshold nulls' labels
        above_values transform maximaSites max_fdr_pvalues k with
    | Except.error e => Except.error e
    | Except.ok none =>
      buildClusters sf n_voxels cluster_threshold nulls' labels above_values
        transform maximaSites max_fdr_pvalues ks
    | Except.ok (some c) =>
      match buildClusters sf n_voxels cluster_threshold nulls' labels
          above_values transform maximaSites max_fdr_pvalues ks with
      | Except.error e => Except.error e
      | Except.ok cs => Except.ok (c :: cs)

/-- Survival function extended to the `np.infty` threshold:
`norm.sf(np.infty) = 0`. -/
def sfT (sf : ℚ → ℚ) : WithTop ℚ → ℚ
  | ⊤ => 0
  | (x : ℚ) => sf x

/-- The thresholding dispatch of `cluster_stats` (lines 84–91): `fpr`,
`fdr` and `bonferroni` are recognised; every other string (the
`else` branch, commented "Brute-force thresholding" in the source) takes
`threshold` verbatim as a z-scale cutoff. -/
def zThresholdOf (sf isf : ℚ → ℚ) (masked_vals : List ℚ) (threshold : ℚ)
    (height_control : String) (n_voxels : ℕ) : WithTop ℚ :=
  if height_control = "fpr" then ((isf threshold : ℚ) : WithTop ℚ)
  else if height_control = "fdr" then fdr_threshold sf masked_vals threshold
  else if height_control = "bonferroni" then
    ((isf (threshold / (n_voxels : ℚ)) : ℚ) : WithTop ℚ)
  else ((threshold : ℚ) : WithTop ℚ)

/-- Everything `cluster_stats` does after the emptiness test, starting
from the already-filled `nulls'` dictionary: label the components,
detect maxima, compute the per-maximum FDR p-values, run the cluster
loop and sort the cluster list by descending size. -/
def cluster_statsCore {n₁ n₂ n₃ : ℕ} (sf : ℚ → ℚ)
    (stat_map : Site n₁ n₂ n₃ → ℚ) (mask : Site n₁ n₂ n₃ → Bool)
    (transform : Site n₁ n₂ n₃ → ℚ × ℚ × ℚ) (cluster_threshold : ℚ)
    (z_threshold : WithTop ℚ) (info : Info) (nulls' : Nulls) :
    Except String (List Cluster × Info) × Nulls :=
  let above_th : Site n₁ n₂ n₃ → Bool :=
    fun s => decide (z_threshold < (stat_map s : WithTop ℚ))
  let above_values : Site n₁ n₂ n₃ → ℚ :=
    fun s => if above_th s then stat_map s else 0
  let labs := labelAll above_th
  let maximaSites :=
    (allSites n₁ n₂ n₃).filter (maximaMask z_threshold above_values)
  let maskedSites := (allSites n₁ n₂ n₃).filter (fun s => mask s)
  let max_fdr_pvalues :=
    (((fdr_pvalues sf (maskedSites.map stat_map)).zip maskedSites).filter
      (fun q => maximaMask z_threshold above_values q.2)).map Prod.fst
  match buildClusters sf info.n_voxels cluster_threshold nulls' labs.1
      above_values transform maximaSites max_fdr_pvalues
      (List.range (labs.2 - 1)) with
  | Except.error e => (Except.error e, nulls')
  | Except.ok clusters =>
    let order := argsortAsc (clusters.map (fun c => -(c.size : ℚ)))
    (Except.ok (order.map (fun i => clusters.getD i emptyCluster), info),
      nulls')

/-- The body of `cluster_stats` once the threshold is fixed: build the
`info` record and either return early with an empty cluster list (before
the `nulls` dictionary is touched, as in the source) or fill the `nulls`
defaults in place and run the cluster pass. -/
def cluster_statsBody {n₁ n₂ n₃ : ℕ} (sf : ℚ → ℚ)
    (stat_map : Site n₁ n₂ n₃ → ℚ) (mask : Site n₁ n₂ n₃ → Bool)
    (transform : Site n₁ n₂ n₃ → ℚ × ℚ × ℚ) (cluster_threshold : ℚ)
    (nulls : Nulls) (z_threshold : WithTop ℚ) :
    Except String (List Cluster × Info) × Nulls :=
  let n_voxels := ((allSites n₁ n₂ n₃).filter (fun s => mask s)).length
  let p_threshold := sfT sf z_threshold
  let info : Info :=
    ⟨n_voxels, z_threshold, p_threshold, min 1 (p_threshold * (n_voxels : ℚ))⟩
  if (allSites n₁ n₂ n₃).all
      (fun s => ! decide (z_threshold < (stat_map s : WithTop ℚ))) then
    (Except.ok ([], info), nulls)
  else
    cluster_statsCore sf stat_map mask transform cluster_threshold
      z_threshold info (fillNulls nulls)

/-- Embedding of `cluster_stats`.  The first component is the returned
`(clusters, info)` pair (or the raised exception); the second component
is the post-call state of the caller's `nulls` dictionary, which the
source mutates in place. -/
def cluster_stats {n₁ n₂ n₃ : ℕ} (sf isf : ℚ → ℚ)
    (stat : Site n₁ n₂ n₃ → ℚ) (mask : Site n₁ n₂ n₃ → Bool)
    (transform : Site n₁ n₂ n₃ → ℚ × ℚ × ℚ) (threshold : ℚ)
    (height_control : String) (cluster_threshold : ℚ) (nulls : Nulls) :
    Except String (List Cluster × Info) × Nulls :=
  cluster_statsBody sf (fun s => if mask s then stat s else 0) mask transform
    cluster_threshold nulls
    (zThresholdOf sf isf
      (((allSites n₁ n₂ n₃).filter (fun s => mask s)).map
        (fun s => if mask s then stat s else 0))
      threshold height_control
      (((allSites n₁ n₂ n₃).filter (fun s => mask s)).length))

/-- Constant survival-function stand-in used in concrete runs (any value
in `(0, 1)` works; the runs use `height_control = 'none'` so the inverse
survival function is never consulted). -/
def halfSf : ℚ → ℚ := fun _ => 1 / 2

/-- Inverse-survival-function stand-in for concrete runs (unused by the
`'none'` and unrecognised height-control branches). -/
def zeroIsf : ℚ → ℚ := fun _ => 0

/-- Rational approximation of the standard normal survival function at
the inputs of the `fdr_threshold` counterexample (`sf 3 ≈ 0.00135`,
`sf 2 ≈ 0.02275`), antitone as a survival function must be. -/
def sfStep : ℚ → ℚ := fun x =>
  if 3 ≤ x then 27 / 20000 else if 2 ≤ x then 91 / 4000 else 1 / 2

/-- Identity-like spatial transform on the `1 × 1 × 2` grid. -/
def coordT12 : Site 1 1 2 → ℚ × ℚ × ℚ :=
  fun s => ((s.1 : ℚ), (s.2.1 : ℚ), (s.2.2 : ℚ))

theorem length_suffixMin : ∀ l : List ℚ, (suffixMin l).length = l.length
  | [] => rfl
  | a :: t => by
    simp only [suffixMin]
    cases h : suffixMin t with
    | nil =>
      have := length_suffixMin t
      rw [h] at this
      simp [← this]
    | cons b r =>
      have := length_suffixMin t
      rw [h] at this
      simp [← this]

theorem le_suffixMin_getD (c : ℚ) :
    ∀ (l : List ℚ) (k : ℕ), k < l.length →
      (∀ j, k ≤ j → j < l.length → c ≤ l.getD j 0) →
      c ≤ (suffixMin l).getD k 0
  | [], k, hk, _ => by simp at hk
  | a :: t, 0, _, h => by
    simp only [suffixMin]
    cases ht : suffixMin t with
    | nil => simpa using h 0 (by omega) (by simp)
    | cons b r =>
      have hlen : t.length ≠ 0 := by
        have := length_suffixMin t
        rw [ht] at this
        simp at this
        omega
      have hb : c ≤ b := by
        have := le_suffixMin_getD c t 0 (by omega)
          (fun j _ hj => by simpa using h (j + 1) (by omega) (by simpa using hj))
        rwa [ht] at this
      have ha : c ≤ a := by simpa using h 0 (by omega) (by simp)
      simpa using le_min ha hb
  | a :: t, k + 1, hk, h => by
    simp only [suffixMin]
    cases ht : suffixMin t with
    | nil =>
      have := length_suffixMin t
      rw [ht] at this
      simp at this
      simp at hk
      omega
    | cons b r =>
      have := le_suffixMin_getD c t k (by simpa using hk)
        (fun j hj hj2 => by simpa using h (j + 1) (by omega) (by simpa using hj2))
      rw [ht] at this
      simpa using this

theorem length_linspace (a b : ℚ) (n : ℕ) : (linspace a b n).length = n := by
  unfold linspace
  split
  · simp [*]
  · rw [List.length_map, List.length_range]

theorem linspace_div_getD (n j : ℕ) (h : j < n) :
    (linspace (1 / (n : ℚ)) 1 n).getD j 0 = ((j : ℚ) + 1) / (n : ℚ) := by
  unfold linspace
  split
  · rename_i h1
    subst h1
    interval_cases j
    norm_num
  · rename_i h1
    have hn2 : 2 ≤ n := by omega
    have hl : j < ((List.range n).map
        (fun i : ℕ => 1 / (n : ℚ) + (i : ℚ) * ((1 - 1 / (n : ℚ)) / ((n : ℚ) - 1)))).length := by
      rw [List.length_map, List.length_range]
      exact h
    rw [List.getD_eq_getElem _ _ hl]
    simp only [List.getElem_map, List.getElem_range]
    have hn0 : (n : ℚ) ≠ 0 := Nat.cast_ne_zero.mpr (by omega)
    have hn1 : (n : ℚ) - 1 ≠ 0 := by
      have : (1 : ℚ) < (n : ℚ) := by exact_mod_cast hn2
      intro hz
      nlinarith
    field_simp
    ring

theorem boolIdx_sublist {α : Type} : ∀ (as : List α) (bs : List Bool),
    List.Sublist (boolIdx as bs) as
  | [], _ => by simp [boolIdx]
  | _ :: _, [] => by simp [boolIdx]
  | a :: as, b :: bs => by
    simp only [boolIdx, List.zip_cons_cons, List.filter_cons]
    cases b with
    | true =>
      simpa [boolIdx] using List.Sublist.cons₂ a (boolIdx_sublist as bs)
    | false =>
      simpa [boolIdx] using List.Sublist.cons a (boolIdx_sublist as bs)

theorem mem_boolIdx {α : Type} {as : List α} {bs : List Bool} {v : α}
    (h : v ∈ boolIdx as bs) :
    ∃ i : ℕ, as[i]? = some v ∧ bs[i]? = some true := by
  unfold boolIdx at h
  obtain ⟨p, hp, hpv⟩ := List.mem_map.mp h
  have hpf := List.mem_filter.mp hp
  obtain ⟨i, hi, he⟩ := List.mem_iff_getElem.mp hpf.1
  have hia : i < as.length := by
    have := hi
    simp [List.length_zip] at this
    omega
  have hib : i < bs.length := by
    have := hi
    simp [List.length_zip] at this
    omega
  refine ⟨i, ?_, ?_⟩
  · rw [List.getElem?_eq_getElem hia]
    have : (as.zip bs)[i] = (as[i], bs[i]) := List.getElem_zip
    rw [this] at he
    rw [← hpv, ← he]
  · rw [List.getElem?_eq_getElem hib]
    have : (as.zip bs)[i] = (as[i], bs[i]) := List.getElem_zip
    rw [this] at he
    have h2 : p.2 = true := by simpa using hpf.2
    rw [← he] at h2
    simpa using h2

theorem getLast_le_of_pairwise :
    ∀ (l : List ℚ) (h : l ≠ []), l.Pairwise descRel → ∀ v ∈ l, l.getLast h ≤ v
  | [], h, _, _, _ => absurd rfl h
  | [a], _, _, v, hv => by
    simp at hv
    simp [hv]
  | a :: b :: t, _, hp, v, hv => by
    have hp1 := List.pairwise_cons.mp hp
    rcases List.mem_cons.mp hv with hva | hvbt
    · have hmem : (b :: t).getLast (by simp) ∈ b :: t := List.getLast_mem _
      have := hp1.1 _ hmem
      rw [List.getLast_cons (by simp)]
      subst hva
      exact this
    · rw [List.getLast_cons (by simp)]
      exact getLast_le_of_pairwise (b :: t) (by simp) hp1.2 v hvbt

theorem indexOf_map_succ : ∀ (l : List ℕ) (j : ℕ),
    (l.map Nat.succ).indexOf (j + 1) = l.indexOf j
  | [], _ => rfl
  | a :: t, j => by
    simp only [List.map_cons, List.indexOf_cons]
    by_cases h : a = j
    · subst h
      simp
    · have h1 : (a == j) = false := by simpa using h
      have h2 : (a.succ == j + 1) = false := by
        simp only [beq_eq_false_iff_ne]
        omega
      rw [h1, h2]
      simp [indexOf_map_succ t j]

theorem indexOf_range : ∀ {n i : ℕ}, i < n → (List.range n).indexOf i = i := by
  intro n
  induction n with
  | zero => omega
  | succ m ih =>
    intro i hi
    rw [List.range_succ_eq_map]
    cases i with
    | zero => simp
    | succ j =>
      have h1 : ((0 : ℕ) == j + 1) = false := by simp
      rw [List.indexOf_cons, h1]
      simp only [cond_false]
      rw [indexOf_map_succ (List.range m) j, ih (by omega)]


theorem argsortAsc_perm (ks : List ℚ) :
    List.Perm (argsortAsc ks) (List.range ks.length) := by
  unfold argsortAsc
  have h := (List.perm_insertionSort keyRel
    ((List.range ks.length).zip ks)).map Prod.fst
  rwa [List.map_fst_zip _ _ (by simp)] at h

theorem argsortAsc_mem_lt {ks : List ℚ} {i : ℕ} (h : i ∈ argsortAsc ks) :
    i < ks.length := by
  have := (argsortAsc_perm ks).mem_iff.mp h
  simpa using this

theorem argsortAsc_length (ks : List ℚ) : (argsortAsc ks).length = ks.length := by
  have := (argsortAsc_perm ks).length_eq
  simpa using this

theorem mem_zipRange {ks : List ℚ} {p : ℕ × ℚ}
    (h : p ∈ (List.range ks.length).zip ks) :
    p.1 < ks.length ∧ p.2 = ks.getD p.1 0 := by
  obtain ⟨i, hi, he⟩ := List.mem_iff_getElem.mp h
  have hia : i < ks.length := by simpa [List.length_zip] using hi
  rw [List.getElem_zip] at he
  simp only [List.getElem_range] at he
  rw [← he]
  exact ⟨hia, by rw [List.getD_eq_getElem _ _ hia]⟩

theorem argsortAsc_pairwise (ks : List ℚ) :
    (argsortAsc ks).Pairwise (fun i j =>
      ks.getD i 0 < ks.getD j 0 ∨ (ks.getD i 0 = ks.getD j 0 ∧ i ≤ j)) := by
  unfold argsortAsc
  rw [List.pairwise_map]
  have hs : (List.insertionSort keyRel
      ((List.range ks.length).zip ks)).Pairwise keyRel :=
    List.sorted_insertionSort keyRel _
  refine hs.imp_of_mem ?_
  intro a b ha hb hr
  have ha2 := mem_zipRange ((List.perm_insertionSort keyRel _).subset ha)
  have hb2 := mem_zipRange ((List.perm_insertionSort keyRel _).subset hb)
  rcases hr with h | ⟨h, h2⟩
  · left
    rw [← ha2.2, ← hb2.2]
    exact h
  · right
    rw [← ha2.2, ← hb2.2]
    exact ⟨h, h2⟩

theorem getD_map_neg (z : List ℚ) (i : ℕ) :
    (z.map Neg.neg).getD i 0 = -(z.getD i 0) := by
  by_cases h : i < z.length
  · rw [List.getD_eq_getElem _ _ (by simpa using h), List.getD_eq_getElem _ _ h]
    simp
  · rw [List.getD_eq_default _ _ (by simpa using not_lt.mp h),
      List.getD_eq_default _ _ (not_lt.mp h)]
    simp

theorem map_getD_range (l : List ℚ) :
    (List.range l.length).map (fun i => l.getD i 0) = l := by
  apply List.ext_getElem (by simp)
  intro i h1 h2
  simp only [List.getElem_map, List.getElem_range]
  rw [List.getD_eq_getElem _ _ h2]

theorem sortDesc_pairwise (z : List ℚ) : (sortDesc z).Pairwise descRel :=
  List.sorted_insertionSort descRel z

theorem sortDesc_perm (z : List ℚ) : List.Perm (sortDesc z) z :=
  List.perm_insertionSort descRel z

theorem length_sortDesc (z : List ℚ) : (sortDesc z).length = z.length :=
  (sortDesc_perm z).length_eq

theorem argsortAsc_map_getD (z : List ℚ) :
    (argsortAsc (z.map Neg.neg)).map (fun i => z.getD i 0) = sortDesc z := by
  have hperm : List.Perm ((argsortAsc (z.map Neg.neg)).map (fun i => z.getD i 0))
      (sortDesc z) := by
    have h1 := (argsortAsc_perm (z.map Neg.neg)).map (fun i => z.getD i 0)
    rw [List.length_map] at h1
    rw [map_getD_range] at h1
    exact h1.trans (sortDesc_perm z).symm
  have hs1 : ((argsortAsc (z.map Neg.neg)).map
      (fun i => z.getD i 0)).Pairwise descRel := by
    rw [List.pairwise_map]
    have hp := argsortAsc_pairwise (z.map Neg.neg)
    refine hp.imp ?_
    intro a b hr
    rw [getD_map_neg, getD_map_neg] at hr
    show z.getD b 0 ≤ z.getD a 0
    rcases hr with h | ⟨h, _⟩
    · linarith
    · linarith
  exact @List.eq_of_perm_of_sorted ℚ descRel _ _ _ hperm hs1 (sortDesc_pairwise z)

theorem argsortAsc_of_pairwise_desc {zs : List ℚ} (h : zs.Pairwise descRel) :
    argsortAsc (zs.map Neg.neg) = List.range zs.length := by
  unfold argsortAsc
  have hsorted : ((List.range (zs.map Neg.neg).length).zip
      (zs.map Neg.neg)).Pairwise keyRel := by
    rw [List.pairwise_iff_getElem]
    intro i j hi hj hij
    have hi2 : i < zs.length := by simpa [List.length_zip] using hi
    have hj2 : j < zs.length := by simpa [List.length_zip] using hj
    rw [List.getElem_zip, List.getElem_zip]
    simp only [List.getElem_range, List.getElem_map]
    have hrel : zs[j] ≤ zs[i] :=
      List.pairwise_iff_getElem.mp h i j hi2 hj2 hij
    rcases lt_or_eq_of_le hrel with hlt | heq
    · left
      show -zs[i] < -zs[j]
      linarith
    · right
      constructor
      · show -zs[i] = -zs[j]
        rw [heq]
      · show i ≤ j
        omega
  rw [List.Sorted.insertionSort_eq hsorted, List.map_fst_zip _ _ (by simp)]
  simp

theorem length_fdrCore (sf : ℚ → ℚ) (zs : List ℚ) :
    (fdrCore sf zs).length = zs.length := by
  unfold fdrCore
  rw [length_suffixMin, List.length_zipWith, List.length_map, length_linspace,
    min_self]

theorem fdr_pvalues_sortedDesc (sf : ℚ → ℚ) {zs : List ℚ}
    (h : zs.Pairwise descRel) : fdr_pvalues sf zs = fdrCore sf zs := by
  simp only [fdr_pvalues]
  rw [argsortAsc_of_pairwise_desc h, map_getD_range]
  apply List.ext_getElem (by simp [length_fdrCore])
  intro i h1 h2
  have hi : i < zs.length := by simpa using h1
  simp only [List.getElem_map, List.getElem_range]
  rw [indexOf_range hi, List.getD_eq_getElem _ _ (by rw [length_fdrCore]; exact hi)]

theorem flood_fg {n₁ n₂ n₃ : ℕ} (fg : Site n₁ n₂ n₃ → Bool) (id : ℕ) :
    ∀ (fuel : ℕ) (q : List (Site n₁ n₂ n₃)) (lab : Site n₁ n₂ n₃ → ℕ),
      (∀ t, lab t ≠ 0 → fg t = true) →
      ∀ t, flood fg id fuel q lab t ≠ 0 → fg t = true := by
  intro fuel
  induction fuel with
  | zero =>
    intro q lab h t
    simpa [flood] using h t
  | succ m ih =>
    intro q lab h t
    cases q with
    | nil => simpa [flood] using h t
    | cons s rest =>
      simp only [flood]
      by_cases hc : (fg s && lab s == 0) = true
      · rw [if_pos hc]
        apply ih
        intro u hu
        by_cases hus : u = s
        · subst hus
          exact (Bool.and_eq_true_iff.mp hc).1
        · rw [Function.update_noteq hus] at hu
          exact h u hu
      · rw [if_neg hc]
        exact ih rest lab h t

theorem labelAll_fg {n₁ n₂ n₃ : ℕ} (fg : Site n₁ n₂ n₃ → Bool) :
    ∀ t, (labelAll fg).1 t ≠ 0 → fg t = true := by
  unfold labelAll
  have hstep : ∀ (sites : List (Site n₁ n₂ n₃)) (st : (Site n₁ n₂ n₃ → ℕ) × ℕ),
      (∀ t, st.1 t ≠ 0 → fg t = true) →
      ∀ t, (sites.foldl (labelStep fg) st).1 t ≠ 0 → fg t = true := by
    intro sites
    induction sites with
    | nil => exact fun st h => h
    | cons s rest ih =>
      intro st h t
      rw [List.foldl_cons]
      apply ih
      unfold labelStep
      by_cases hc : (fg s && st.1 s == 0) = true
      · rw [if_pos hc]
        intro u hu
        exact flood_fg fg st.2 _ [s] st.1 h u hu
      · rw [if_neg hc]
        exact h
  exact hstep (allSites n₁ n₂ n₃) (fun _ => 0, 1) (by intro t h; simp at h)

theorem descIdx_getD_pairwise (vals : List ℚ) :
    ((descIdx vals).map (fun i => vals.getD i 0)).Pairwise descRel := by
  unfold descIdx
  rw [List.pairwise_map, List.pairwise_reverse]
  have hp := argsortAsc_pairwise vals
  refine hp.imp ?_
  intro a b hr
  show vals.getD a 0 ≤ vals.getD b 0
  rcases hr with h | ⟨h, _⟩
  · exact le_of_lt h
  · exact le_of_eq h

theorem descIdx_getD_mem {vals : List ℚ} {v : ℚ}
    (h : v ∈ (descIdx vals).map (fun i => vals.getD i 0)) :
    v ∈ vals := by
  obtain ⟨i, hi, he⟩ := List.mem_map.mp h
  have hlt : i < vals.length := argsortAsc_mem_lt (List.mem_reverse.mp hi)
  rw [← he, List.getD_eq_getElem _ _ hlt]
  exact List.getElem_mem _

theorem descIdx_pairwise (vals : List ℚ) :
    (descIdx vals).Pairwise (fun i j =>
      vals.getD j 0 < vals.getD i 0 ∨
        (vals.getD j 0 = vals.getD i 0 ∧ j ≤ i)) := by
  unfold descIdx
  rw [List.pairwise_reverse]
  exact argsortAsc_pairwise vals

theorem buildClusters_ok_mem {n₁ n₂ n₃ : ℕ} (sf : ℚ → ℚ) (nv : ℕ) (cth : ℚ)
    (nulls' : Nulls) (labels : Site n₁ n₂ n₃ → ℕ)
    (av : Site n₁ n₂ n₃ → ℚ) (tr : Site n₁ n₂ n₃ → ℚ × ℚ × ℚ)
    (ms : List (Site n₁ n₂ n₃)) (mf : List ℚ) :
    ∀ (ks : List ℕ) (cs : List Cluster),
      buildClusters sf nv cth nulls' labels av tr ms mf ks = Except.ok cs →
      ∀ c ∈ cs, ∃ k, k ∈ ks ∧
        buildCluster sf nv cth nulls' labels av tr ms mf k =
          Except.ok (some c) := by
  intro ks
  induction ks with
  | nil =>
    intro cs h c hc
    simp only [buildClusters] at h
    obtain rfl : ([] : List Cluster) = cs := Except.ok.inj h
    simp at hc
  | cons k rest ih =>
    intro cs h c hc
    simp only [buildClusters] at h
    cases hb : buildCluster sf nv cth nulls' labels av tr ms mf k with
    | error e => rw [hb] at h; simp at h
    | ok o =>
      rw [hb] at h
      cases o with
      | none =>
        obtain ⟨k2, hk2, hb2⟩ := ih cs h c hc
        exact ⟨k2, List.mem_cons_of_mem _ hk2, hb2⟩
      | some c2 =>
        cases hr : buildClusters sf nv cth nulls' labels av tr ms mf rest with
        | error e => rw [hr] at h; simp at h
        | ok cs2 =>
          rw [hr] at h
          obtain rfl : c2 :: cs2 = cs := Except.ok.inj h
          rcases List.mem_cons.mp hc with rfl | hc2
          · exact ⟨k, List.mem_cons_self _ _, hb⟩
          · obtain ⟨k2, hk2, hb2⟩ := ih cs2 hr c hc2
            exact ⟨k2, List.mem_cons_of_mem _ hk2, hb2⟩

theorem buildCluster_zscore {n₁ n₂ n₃ : ℕ} {sf : ℚ → ℚ} {nv : ℕ} {cth : ℚ}
    {nulls' : Nulls} {labels : Site n₁ n₂ n₃ → ℕ}
    {av : Site n₁ n₂ n₃ → ℚ} {tr : Site n₁ n₂ n₃ → ℚ × ℚ × ℚ}
    {ms : List (Site n₁ n₂ n₃)} {mf : List ℚ} {k : ℕ} {c : Cluster}
    (hb : buildCluster sf nv cth nulls' labels av tr ms mf k =
      Except.ok (some c)) :
    (∀ v ∈ c.zscore, ∃ s : Site n₁ n₂ n₃, labels s = k + 1 ∧ av s = v) ∧
      c.zscore.Pairwise descRel := by
  simp only [buildCluster] at hb
  split at hb
  · split at hb
    · simp at hb
    · rename_i fwer hf
      obtain rfl : _ = c := Option.some.inj (Except.ok.inj hb)
      constructor
      · intro v hv
        have hv2 : v ∈ boolIdx (ms.map av)
            (ms.map (fun s => labels s == k + 1)) :=
          descIdx_getD_mem hv
        obtain ⟨i, hia, hib⟩ := mem_boolIdx hv2
        have hi : i < ms.length := by
          by_contra hno
          rw [List.getElem?_eq_none (by simpa using not_lt.mp hno)] at hia
          simp at hia
        refine ⟨ms[i], ?_, ?_⟩
        · rw [List.getElem?_eq_getElem (by simpa using hi)] at hib
          have hib2 := Option.some.inj hib
          simp only [List.getElem_map] at hib2
          simpa using hib2
        · rw [List.getElem?_eq_getElem (by simpa using hi)] at hia
          have hia2 := Option.some.inj hia
          simp only [List.getElem_map] at hia2
          exact hia2
      · exact descIdx_getD_pairwise _
  · simp at hb

theorem core_ok_spec {n₁ n₂ n₃ : ℕ} {sf : ℚ → ℚ}
    {stat_map : Site n₁ n₂ n₃ → ℚ} {mask : Site n₁ n₂ n₃ → Bool}
    {tr : Site n₁ n₂ n₃ → ℚ × ℚ × ℚ} {cth : ℚ} {zth : WithTop ℚ}
    {info : Info} {nulls' : Nulls} {cs : List Cluster} {info2 : Info}
    (h : (cluster_statsCore sf stat_map mask tr cth zth info nulls').1 =
      Except.ok (cs, info2)) :
    info2 = info ∧
      (∀ c ∈ cs, (∀ v ∈ c.zscore, zth < (v : WithTop ℚ)) ∧
        c.zscore.Pairwise descRel) ∧
      (cs.map Cluster.size).Pairwise (fun a b => b ≤ a) ∧
      (∃ pre : List Cluster,
        cs = (argsortAsc (pre.map (fun c => -(c.size : ℚ)))).map
          (fun i => pre.getD i emptyCluster)) := by
  simp only [cluster_statsCore] at h
  split at h
  · simp at h
  · rename_i clusters heq
    obtain ⟨hcs, hinfo⟩ := Prod.mk.inj (Except.ok.inj h)
    subst hinfo
    refine ⟨rfl, ?_, ?_, ⟨clusters, hcs.symm⟩⟩
    · intro c hc
      rw [← hcs] at hc
      obtain ⟨i, hio, hie⟩ := List.mem_map.mp hc
      have hilt : i < clusters.length := by
        have := argsortAsc_mem_lt hio
        simpa using this
      have hcmem : c ∈ clusters := by
        rw [← hie, List.getD_eq_getElem _ _ hilt]
        exact List.getElem_mem _
      obtain ⟨k, _, hbk⟩ :=
        buildClusters_ok_mem _ _ _ _ _ _ _ _ _ _ _ heq c hcmem
      obtain ⟨hmem, hpw⟩ := buildCluster_zscore hbk
      refine ⟨?_, hpw⟩
      intro v hv
      obtain ⟨s, hls, hvs⟩ := hmem v hv
      have hfg : decide (zth < (stat_map s : WithTop ℚ)) = true := by
        have hall := labelAll_fg
          (fun s => decide (zth < (stat_map s : WithTop ℚ))) s
        apply hall
        rw [hls]
        exact Nat.succ_ne_zero k
      have hlt : zth < (stat_map s : WithTop ℚ) := of_decide_eq_true hfg
      rw [← hvs]
      show zth < _
      have hav : (if decide (zth < (stat_map s : WithTop ℚ)) then stat_map s
          else 0) = stat_map s := if_pos hfg
      rw [hav]
      exact hlt
    · rw [← hcs, List.map_map]
      rw [List.pairwise_map]
      have hp := argsortAsc_pairwise (clusters.map (fun c => -(c.size : ℚ)))
      refine hp.imp_of_mem ?_
      intro a b ha hb hr
      have hal : a < clusters.length := by
        have := argsortAsc_mem_lt ha
        simpa using this
      have hbl : b < clusters.length := by
        have := argsortAsc_mem_lt hb
        simpa using this
      have hka : (clusters.map (fun c => -(c.size : ℚ))).getD a 0 =
          -(((clusters.getD a emptyCluster).size : ℚ)) := by
        rw [List.getD_eq_getElem _ _ (by simpa using hal),
          List.getD_eq_getElem _ _ hal]
        simp
      have hkb : (clusters.map (fun c => -(c.size : ℚ))).getD b 0 =
          -(((clusters.getD b emptyCluster).size : ℚ)) := by
        rw [List.getD_eq_getElem _ _ (by simpa using hbl),
          List.getD_eq_getElem _ _ hbl]
        simp
      rw [hka, hkb] at hr
      show (Cluster.size ∘ fun i => clusters.getD i emptyCluster) b ≤
        (Cluster.size ∘ fun i => clusters.getD i emptyCluster) a
      simp only [Function.comp]
      rcases hr with hlt | ⟨heq2, _⟩
      · have : ((clusters.getD b emptyCluster).size : ℚ) <
            ((clusters.getD a emptyCluster).size : ℚ) := by linarith
        exact_mod_cast le_of_lt this
      · have : ((clusters.getD a emptyCluster).size : ℚ) =
            ((clusters.getD b emptyCluster).size : ℚ) := by linarith
        exact_mod_cast this.ge

theorem orderedInsert_map {α β : Type} (r : α → α → Prop) [DecidableRel r]
    (r2 : β → β → Prop) [DecidableRel r2] (g : β → α)
    (hiff : ∀ a b, r2 a b ↔ r (g a) (g b)) (a : β) :
    ∀ l : List β, List.orderedInsert r (g a) (l.map g) =
      (List.orderedInsert r2 a l).map g
  | [] => rfl
  | b :: t => by
    simp only [List.map_cons, List.orderedInsert]
    by_cases h : r2 a b
    · rw [if_pos ((hiff a b).mp h), if_pos h]
      simp
    · rw [if_neg (fun hc => h ((hiff a b).mpr hc)), if_neg h]
      simp only [List.map_cons, List.cons.injEq, true_and]
      exact orderedInsert_map r r2 g hiff a t

theorem insertionSort_map {α β : Type} (r : α → α → Prop) [DecidableRel r]
    (r2 : β → β → Prop) [DecidableRel r2] (g : β → α)
    (hiff : ∀ a b, r2 a b ↔ r (g a) (g b)) :
    ∀ l : List β, List.insertionSort r (l.map g) =
      (List.insertionSort r2 l).map g
  | [] => rfl
  | a :: t => by
    simp only [List.map_cons, List.insertionSort]
    rw [insertionSort_map r r2 g hiff t]
    exact orderedInsert_map r r2 g hiff a _

theorem mem_zipRangeCluster {l : List Cluster} {p : ℕ × Cluster}
    (h : p ∈ (List.range l.length).zip l) :
    p.1 < l.length ∧ p.2 = l.getD p.1 emptyCluster := by
  obtain ⟨i, hi, he⟩ := List.mem_iff_getElem.mp h
  have hia : i < l.length := by simpa [List.length_zip] using hi
  rw [List.getElem_zip] at he
  simp only [List.getElem_range] at he
  rw [← he]
  exact ⟨hia, by rw [List.getD_eq_getElem _ _ hia]⟩

theorem sizeIdxRel_iff_keyRel (a b : ℕ × Cluster) :
    sizeIdxRel a b ↔
      keyRel (Prod.map id (fun c : Cluster => -(c.size : ℚ)) a)
        (Prod.map id (fun c : Cluster => -(c.size : ℚ)) b) := by
  simp only [sizeIdxRel, keyRel, Prod.map, id]
  constructor
  · rintro (h | ⟨h, h2⟩)
    · left
      have hq : ((b.2.size : ℚ)) < ((a.2.size : ℚ)) := by exact_mod_cast h
      linarith
    · right
      have hq : ((a.2.size : ℚ)) = ((b.2.size : ℚ)) := by exact_mod_cast h
      exact ⟨by linarith, h2⟩
  · rintro (h | ⟨h, h2⟩)
    · left
      have hq : ((b.2.size : ℚ)) < ((a.2.size : ℚ)) := by linarith
      exact_mod_cast hq
    · right
      have hq : ((a.2.size : ℚ)) = ((b.2.size : ℚ)) := by linarith
      exact ⟨by exact_mod_cast hq, h2⟩

theorem argsort_gather_eq_stableSortBySize (cs0 : List Cluster) :
    (argsortAsc (cs0.map (fun c => -(c.size : ℚ)))).map
      (fun i => cs0.getD i emptyCluster) = stableSortBySize cs0 := by
  unfold argsortAsc stableSortBySize
  rw [List.length_map, List.zip_map_right,
    insertionSort_map keyRel sizeIdxRel
      (Prod.map id (fun c : Cluster => -(c.size : ℚ)))
      sizeIdxRel_iff_keyRel]
  rw [List.map_map, List.map_map]
  apply List.map_congr_left
  intro p hp
  have hpz := mem_zipRangeCluster
    ((List.perm_insertionSort sizeIdxRel _).subset hp)
  show cs0.getD (Prod.map id (fun c : Cluster => -(c.size : ℚ)) p).1
      emptyCluster = p.2
  simp only [Prod.map, id]
  exact hpz.2.symm

theorem selectedOf_pairwise (sf : ℚ → ℚ) (z : List ℚ) (alpha : ℚ) :
    (selectedOf sf z alpha).Pairwise descRel := by
  simp only [selectedOf]
  exact List.Pairwise.sublist (boolIdx_sublist _ _) (sortDesc_pairwise z)

/-- C1 (amended): for a non-empty z-array and `alpha ∈ (0, 1)`,
`fdr_threshold` sorts the values descending, compares the
survival-function p-values to `alpha * linspace(.5/n, 1-.5/n, n)`
(this is `selectedOf`), and returns the SMALLEST-statistic qualifying
entry minus `1e-8` (the last qualifying entry of the descending order,
i.e. the minimum of the qualifying set — not the largest-statistic one
as the claim states); it returns `+infinity` when no entry qualifies. -/
theorem fdr_threshold_min_selected (sf : ℚ → ℚ) (z : List ℚ) (alpha : ℚ)
    (hz : z ≠ []) (h0 : 0 < alpha) (h1 : alpha < 1) :
    (∀ hsel : selectedOf sf z alpha ≠ [],
      (selectedOf sf z alpha).getLast hsel ∈ selectedOf sf z alpha ∧
      (∀ v ∈ selectedOf sf z alpha, (selectedOf sf z alpha).getLast hsel ≤ v) ∧
      fdr_threshold sf z alpha =
        (((selectedOf sf z alpha).getLast hsel - 1 / 100000000 : ℚ) :
          WithTop ℚ)) ∧
    (selectedOf sf z alpha = [] → fdr_threshold sf z alpha = ⊤) := by
  constructor
  · intro hsel
    refine ⟨List.getLast_mem hsel, ?_, ?_⟩
    · exact getLast_le_of_pairwise _ hsel (selectedOf_pairwise sf z alpha)
    · unfold fdr_threshold
      rw [List.getLast?_eq_getLast _ hsel]
  · intro hsel
    unfold fdr_threshold
    rw [hsel]
    rfl

unseal Rat.add Rat.mul Rat.inv Rat.sub in
/-- C1 counterexample: at `z = [3, 2]`, `alpha = 1/10` and a rational
survival function matching the standard normal at 2 and 3, both entries
qualify; the code returns the smaller qualifying statistic minus `1e-8`
(`2 - 1e-8`), while the claim's "largest-statistic entry" reading
(`fdr_threshold_claim`) yields `3 - 1e-8`. -/
theorem fdr_threshold_cex :
    fdr_threshold sfStep [3, 2] (1 / 10) =
      ((2 - 1 / 100000000 : ℚ) : WithTop ℚ) ∧
    fdr_threshold_claim sfStep [3, 2] (1 / 10) =
      ((3 - 1 / 100000000 : ℚ) : WithTop ℚ) ∧
    fdr_threshold sfStep [3, 2] (1 / 10) ≠
      fdr_threshold_claim sfStep [3, 2] (1 / 10) :=
  ⟨by decide, by decide, by decide⟩

unseal Rat.add Rat.mul Rat.inv Rat.sub in
/-- Witness for the amended C1 theorem at a concrete qualifying input:
the returned threshold is the last (minimal) qualifying entry minus
epsilon. -/
theorem fdr_threshold_min_selected_witness :
    fdr_threshold sfStep [3, 2] (1 / 10) =
      (((selectedOf sfStep [3, 2] (1 / 10)).getLast (by decide) -
        1 / 100000000 : ℚ) : WithTop ℚ) :=
  ((fdr_threshold_min_selected sfStep [3, 2] (1 / 10) (by decide) (by decide)
    (by decide)).1 (by decide)).2.2

/-- C2 (amended): an unrecognised `height_control` does not raise any
error; the code's final `else` branch treats it exactly like `'none'`
(brute-force thresholding), so the whole call behaves as with `'none'`. -/
theorem cluster_stats_unknown_mode {n₁ n₂ n₃ : ℕ} (sf isf : ℚ → ℚ)
    (stat : Site n₁ n₂ n₃ → ℚ) (mask : Site n₁ n₂ n₃ → Bool)
    (tr : Site n₁ n₂ n₃ → ℚ × ℚ × ℚ) (th : ℚ) (hcs : String) (cth : ℚ)
    (nulls : Nulls) (h1 : hcs ≠ "fpr") (h2 : hcs ≠ "fdr")
    (h3 : hcs ≠ "bonferroni") :
    cluster_stats sf isf stat mask tr th hcs cth nulls =
      cluster_stats sf isf stat mask tr th "none" cth nulls := by
  unfold cluster_stats
  congr 1
  unfold zThresholdOf
  rw [if_neg h1, if_neg h2, if_neg h3, if_neg (by decide), if_neg (by decide),
    if_neg (by decide)]

set_option maxRecDepth 10000 in
unseal Rat.add Rat.mul Rat.inv Rat.sub in
/-- C2 counterexample: a call with the unrecognised mode `'garbage'`
returns a normal result (no `ConfigurationError` exists in the code). -/
theorem cluster_stats_unknown_mode_cex :
    (@cluster_stats 1 1 1 halfSf zeroIsf (fun _ => 5) (fun _ => true)
      (fun _ => (0, 0, 0)) 0 "garbage" 0 ⟨none, none, none⟩).1 =
    Except.ok
      ([⟨1, [(0, 0, 0)], [5], [1 / 2], [1 / 2], some [1 / 2], none, none⟩],
        ⟨1, ((0 : ℚ) : WithTop ℚ), 1 / 2, 1 / 2⟩) := by
  decide

unseal Rat.add Rat.mul Rat.inv Rat.sub in
/-- Witness for the amended C2 theorem at a concrete input. -/
theorem cluster_stats_unknown_mode_witness :
    @cluster_stats 1 1 1 halfSf zeroIsf (fun _ => 5) (fun _ => true)
      (fun _ => (0, 0, 0)) 0 "garbage" 0 ⟨none, none, none⟩ =
    @cluster_stats 1 1 1 halfSf zeroIsf (fun _ => 5) (fun _ => true)
      (fun _ => (0, 0, 0)) 0 "none" 0 ⟨none, none, none⟩ :=
  cluster_stats_unknown_mode halfSf zeroIsf (fun _ => 5) (fun _ => true)
    (fun _ => (0, 0, 0)) 0 "garbage" 0 ⟨none, none, none⟩ (by decide)
    (by decide) (by decide)

set_option maxRecDepth 10000 in
unseal Rat.add Rat.mul Rat.inv Rat.sub in
/-- C3 (code bug): the source default-fills the caller's `nulls`
dictionary in place (lines 120–125), so a call with an empty dictionary
leaves it with the keys `'zmax'`, `'smax'`, `'s'` inserted — the spec's
no-mutation/no-state-leak invariant is violated by the code. -/
theorem cluster_stats_mutates_nulls :
    (@cluster_stats 1 1 1 halfSf zeroIsf (fun _ => 5) (fun _ => true)
      (fun _ => (0, 0, 0)) 0 "none" 0 ⟨none, none, none⟩).2 =
      ⟨some (NullsVal.str "bonferroni"), some NullsVal.noneVal,
        some NullsVal.noneVal⟩ ∧
    (⟨none, none, none⟩ : Nulls).zmax = none ∧
    (⟨none, none, none⟩ : Nulls).smax = none ∧
    (⟨none, none, none⟩ : Nulls).s = none :=
  ⟨by decide, rfl, rfl, rfl⟩

set_option maxRecDepth 10000 in
unseal Rat.add Rat.mul Rat.inv Rat.sub in
/-- C4 (code bug): when `nulls['zmax']` is an array and a qualifying
cluster exists, the source evaluates `clusters['zscore']` — indexing the
Python list `clusters` with a string — and raises a `TypeError` instead
of computing the empirical-null percentile of the cluster's z-scores. -/
theorem cluster_stats_zmax_array_raises :
    (@cluster_stats 1 1 1 halfSf zeroIsf (fun _ => 5) (fun _ => true)
      (fun _ => (0, 0, 0)) 0 "none" 0
      ⟨some (NullsVal.arr [1, 2]), none, none⟩).1 =
    Except.error "TypeError" := by
  decide

/-- C5 (amended): within every returned cluster the local maxima are
sorted in descending order of statistic value, but ties are broken by
REVERSED detection order (the code computes `argsort()[::-1]`, which
reverses the stable ascending order, so tied entries end up latest-first
— not in original detection order as the claim states); the cluster
list itself is sorted by descending size with ties keeping
first-encountered-label order (stable), as claimed.  First conjunct:
the per-cluster index permutation `descIdx` orders descending with ties
by descending position.  Second conjunct: every successful
`cluster_stats` output has per-cluster descending z-scores,
non-increasing cluster sizes, and equals the stable descending-size
sort (`stableSortBySize`, written from the claim's words: ties keep the
original first-encountered-label position) of the label-ordered cluster
list it was built from.  Third conjunct: the sort step the source
performs (argsort of the negated sizes, then gather) coincides with
that stable sort on every cluster list. -/
theorem cluster_sorting_spec :
    (∀ vals : List ℚ, (descIdx vals).Pairwise (fun i j =>
        vals.getD j 0 < vals.getD i 0 ∨
          (vals.getD j 0 = vals.getD i 0 ∧ j ≤ i))) ∧
    (∀ (n₁ n₂ n₃ : ℕ) (sf isf : ℚ → ℚ) (stat : Site n₁ n₂ n₃ → ℚ)
      (mask : Site n₁ n₂ n₃ → Bool) (tr : Site n₁ n₂ n₃ → ℚ × ℚ × ℚ)
      (th : ℚ) (hcs : String) (cth : ℚ) (nulls : Nulls) (cs : List Cluster)
      (info : Info),
      (cluster_stats sf isf stat mask tr th hcs cth nulls).1 =
        Except.ok (cs, info) →
      (∀ c ∈ cs, c.zscore.Pairwise descRel) ∧
        (cs.map Cluster.size).Pairwise (fun a b => b ≤ a) ∧
        (∃ pre : List Cluster, cs = stableSortBySize pre)) ∧
    (∀ cs0 : List Cluster,
      (argsortAsc (cs0.map (fun c => -(c.size : ℚ)))).map
        (fun i => cs0.getD i emptyCluster) = stableSortBySize cs0) := by
  refine ⟨descIdx_pairwise, ?_, argsort_gather_eq_stableSortBySize⟩
  intro n₁ n₂ n₃ sf isf stat mask tr th hcs cth nulls cs info h
  simp only [cluster_stats, cluster_statsBody] at h
  split at h
  · obtain ⟨h1, h2⟩ := Prod.mk.inj (Except.ok.inj h)
    subst h1
    refine ⟨by intro c hc; simp at hc, by simp, [], ?_⟩
    rfl
  · have hs := core_ok_spec h
    obtain ⟨pre, hpre⟩ := hs.2.2.2
    refine ⟨fun c hc => (hs.2.1 c hc).2, hs.2.2.1, pre, ?_⟩
    rw [hpre, argsort_gather_eq_stableSortBySize]

set_option maxRecDepth 10000 in
unseal Rat.add Rat.mul Rat.inv Rat.sub in
/-- C5 counterexample: on a `1 × 1 × 2` grid whose two cells tie at
value 4 (detected in raster order `(0,0,0)` then `(0,0,1)`), the claim's
stable tie-breaking predicts maxima coordinates
`[(0,0,0), (0,0,1)]`, but the code returns them reversed. -/
theorem cluster_sorting_cex :
    (@cluster_stats 1 1 2 halfSf zeroIsf (fun _ => 4) (fun _ => true)
      coordT12 3 "none" 0 ⟨none, none, none⟩).1 =
      Except.ok
        ([⟨2, [(0, 0, 1), (0, 0, 0)], [4, 4], [1 / 2, 1 / 2],
          [1 / 2, 1 / 2], some [1, 1], none, none⟩],
          ⟨2, ((3 : ℚ) : WithTop ℚ), 1 / 2, 1⟩) ∧
    ([((0 : ℚ), (0 : ℚ), (1 : ℚ)), (0, 0, 0)] : List (ℚ × ℚ × ℚ)) ≠
      [(0, 0, 0), (0, 0, 1)] :=
  ⟨by decide, by decide⟩

set_option maxRecDepth 10000 in
unseal Rat.add Rat.mul Rat.inv Rat.sub in
/-- Witness for the amended C5 theorem at a concrete run. -/
theorem cluster_sorting_witness :
    List.Pairwise (fun a b => b ≤ a) (List.map Cluster.size
      [⟨2, [((0 : ℚ), (0 : ℚ), (1 : ℚ)), (0, 0, 0)], [4, 4], [1 / 2, 1 / 2],
        [1 / 2, 1 / 2], some [1, 1], none, none⟩]) :=
  (cluster_sorting_spec.2.1 1 1 2 halfSf zeroIsf (fun _ => 4) (fun _ => true)
    coordT12 3 "none" 0 ⟨none, none, none⟩
    [⟨2, [((0 : ℚ), (0 : ℚ), (1 : ℚ)), (0, 0, 0)], [4, 4], [1 / 2, 1 / 2],
      [1 / 2, 1 / 2], some [1, 1], none, none⟩]
    ⟨2, ((3 : ℚ) : WithTop ℚ), 1 / 2, 1⟩ (by decide)).2.1

/-- C6: `fdr_pvalues` commutes with descending sorting: applying it to
the descending-sorted array and mapping the result back through the
inverse of the sorting permutation (`inv_order[i]` is the position of
`i` in `order = argsort(-z)`) reproduces `fdr_pvalues` of the unsorted
input — also for arrays with ties, since the stable argsort of an
already-descending array is the identity. -/
theorem fdr_pvalues_sort_invariant (sf : ℚ → ℚ) (z : List ℚ) (hz : z ≠ []) :
    (List.range z.length).map (fun i =>
      (fdr_pvalues sf (sortDesc z)).getD
        ((argsortAsc (z.map Neg.neg)).indexOf i) 0) = fdr_pvalues sf z := by
  have h1 : fdr_pvalues sf (sortDesc z) = fdrCore sf (sortDesc z) :=
    fdr_pvalues_sortedDesc sf (sortDesc_pairwise z)
  have h2 : fdr_pvalues sf z = (List.range z.length).map (fun i =>
      (fdrCore sf (sortDesc z)).getD
        ((argsortAsc (z.map Neg.neg)).indexOf i) 0) := by
    simp only [fdr_pvalues]
    rw [argsortAsc_map_getD]
  rw [h1, h2]

unseal Rat.add Rat.mul Rat.inv Rat.sub in
/-- Witness for C6 at a concrete input with tied values. -/
theorem fdr_pvalues_sort_invariant_witness :
    (List.range ([4, 4, 2] : List ℚ).length).map (fun i =>
      (fdr_pvalues halfSf (sortDesc [4, 4, 2])).getD
        ((argsortAsc (([4, 4, 2] : List ℚ).map Neg.neg)).indexOf i) 0) =
      fdr_pvalues halfSf [4, 4, 2] :=
  fdr_pvalues_sort_invariant halfSf [4, 4, 2] (by decide)

theorem takeWhile_length_sorted (z : ℚ) :
    ∀ l : List ℚ, l.Pairwise (· ≤ ·) →
      (l.takeWhile (fun x => decide (x < z))).length =
        l.countP (fun x => decide (x < z))
  | [], _ => rfl
  | a :: t, hp => by
    have hp2 := List.pairwise_cons.mp hp
    by_cases h : a < z
    · rw [List.takeWhile_cons_of_pos (by simpa using h),
        List.countP_cons_of_pos _ _ (by simpa using h)]
      simp [takeWhile_length_sorted z t hp2.2]
    · rw [List.takeWhile_cons_of_neg (by simpa using h),
        List.countP_cons_of_neg _ _ (by simpa using h)]
      have hz : t.countP (fun x => decide (x < z)) = 0 := by
        rw [List.countP_eq_zero]
        intro x hx
        simp only [decide_eq_true_eq]
        intro hlt
        exact h (lt_of_le_of_lt (hp2.1 x hx) hlt)
      simp [hz]

/-- C7: `empirical_pvalue` (binary search into the sorted reference)
returns `1 - rank/size` where `rank` counts reference values strictly
below the observed value, and returns exactly 1 whenever the observed
value is at or below the minimum of the reference array. -/
theorem empirical_pvalue_spec (z : ℚ) (ref : List ℚ) (h : ref ≠ []) :
    empirical_pvalue z ref =
      1 - (ref.countP (fun x => decide (x < z)) : ℚ) / (ref.length : ℚ) ∧
    ((∀ x ∈ ref, z ≤ x) → empirical_pvalue z ref = 1) := by
  have hkey : empirical_pvalue z ref =
      1 - (ref.countP (fun x => decide (x < z)) : ℚ) / (ref.length : ℚ) := by
    unfold empirical_pvalue searchsortedLeft
    rw [takeWhile_length_sorted z _ (List.sorted_insertionSort _ ref)]
    rw [List.Perm.countP_eq _ (List.perm_insertionSort _ ref)]
  refine ⟨hkey, fun hmin => ?_⟩
  rw [hkey]
  have hc : ref.countP (fun x => decide (x < z)) = 0 := by
    rw [List.countP_eq_zero]
    intro x hx
    simp only [decide_eq_true_eq]
    exact not_lt.mpr (hmin x hx)
  rw [hc]
  simp

unseal Rat.add Rat.mul Rat.inv Rat.sub in
/-- Witness for C7 at a concrete observed value below the reference
minimum: the empirical p-value is exactly 1. -/
theorem empirical_pvalue_spec_witness :
    empirical_pvalue 1 [2, 3] = 1 :=
  (empirical_pvalue_spec 1 [2, 3] (by decide)).2 (by decide)

theorem fillNulls_idem (n : Nulls) : fillNulls (fillNulls n) = fillNulls n := by
  simp [fillNulls]

theorem cluster_statsCore_snd {n₁ n₂ n₃ : ℕ} (sf : ℚ → ℚ)
    (stat_map : Site n₁ n₂ n₃ → ℚ) (mask : Site n₁ n₂ n₃ → Bool)
    (tr : Site n₁ n₂ n₃ → ℚ × ℚ × ℚ) (cth : ℚ) (zth : WithTop ℚ)
    (info : Info) (nulls' : Nulls) :
    (cluster_statsCore sf stat_map mask tr cth zth info nulls').2 = nulls' := by
  simp only [cluster_statsCore]
  split <;> rfl

theorem cluster_statsBody_nulls_stable {n₁ n₂ n₃ : ℕ} (sf : ℚ → ℚ)
    (stat_map : Site n₁ n₂ n₃ → ℚ) (mask : Site n₁ n₂ n₃ → Bool)
    (tr : Site n₁ n₂ n₃ → ℚ × ℚ × ℚ) (cth : ℚ) (nulls : Nulls)
    (zth : WithTop ℚ) :
    cluster_statsBody sf stat_map mask tr cth
      ((cluster_statsBody sf stat_map mask tr cth nulls zth).2) zth =
    cluster_statsBody sf stat_map mask tr cth nulls zth := by
  simp only [cluster_statsBody]
  by_cases hcond : ((allSites n₁ n₂ n₃).all
      (fun s => ! decide (zth < (stat_map s : WithTop ℚ)))) = true
  · simp only [if_pos hcond]
  · simp only [if_neg hcond]
    rw [cluster_statsCore_snd, fillNulls_idem]

/-- C8: calling `cluster_stats` a second time with identical inputs and
with the `nulls` dictionary in the state the first call left it (which
is exactly what happens when both calls rely on the shared mutable
default `nulls={}`) returns the same `(clusters, info)` result and
leaves the same dictionary state: the default-filling mutation is
idempotent, so no behavioural state leaks between runs. -/
theorem cluster_stats_second_call {n₁ n₂ n₃ : ℕ} (sf isf : ℚ → ℚ)
    (stat : Site n₁ n₂ n₃ → ℚ) (mask : Site n₁ n₂ n₃ → Bool)
    (tr : Site n₁ n₂ n₃ → ℚ × ℚ × ℚ) (th : ℚ) (hcs : String) (cth : ℚ)
    (nulls : Nulls) :
    cluster_stats sf isf stat mask tr th hcs cth
      ((cluster_stats sf isf stat mask tr th hcs cth nulls).2) =
    cluster_stats sf isf stat mask tr th hcs cth nulls := by
  unfold cluster_stats
  exact cluster_statsBody_nulls_stable sf _ mask tr cth nulls _

/-- C9: on every input where `cluster_stats` returns normally, every
z-score reported in the `zscore` field of every returned cluster is
strictly greater than the returned `info.threshold_z`: reported maxima
belong to labelled (above-threshold) cells, whose statistic value
strictly exceeds the cluster-forming threshold. -/
theorem cluster_zscores_above_threshold {n₁ n₂ n₃ : ℕ} (sf isf : ℚ → ℚ)
    (stat : Site n₁ n₂ n₃ → ℚ) (mask : Site n₁ n₂ n₃ → Bool)
    (tr : Site n₁ n₂ n₃ → ℚ × ℚ × ℚ) (th : ℚ) (hcs : String) (cth : ℚ)
    (nulls : Nulls) (cs : List Cluster) (info : Info)
    (h : (cluster_stats sf isf stat mask tr th hcs cth nulls).1 =
      Except.ok (cs, info)) :
    ∀ c ∈ cs, ∀ v ∈ c.zscore, info.threshold_z < (v : WithTop ℚ) := by
  simp only [cluster_stats, cluster_statsBody] at h
  split at h
  · obtain ⟨h1, h2⟩ := Prod.mk.inj (Except.ok.inj h)
    subst h1
    intro c hc
    simp at hc
  · have hs := core_ok_spec h
    intro c hc v hv
    have hlt := (hs.2.1 c hc).1 v hv
    rw [hs.1]
    exact hlt

set_option maxRecDepth 10000 in
unseal Rat.add Rat.mul Rat.inv Rat.sub in
/-- Witness for C9 at a concrete run with one cluster. -/
theorem cluster_zscores_above_threshold_witness :
    (⟨1, ((0 : ℚ) : WithTop ℚ), 1 / 2, 1 / 2⟩ : Info).threshold_z <
      ((5 : ℚ) : WithTop ℚ) :=
  cluster_zscores_above_threshold halfSf zeroIsf
    (fun _ : Site 1 1 1 => 5) (fun _ => true) (fun _ => (0, 0, 0)) 0 "none" 0
    ⟨none, none, none⟩
    [⟨1, [(0, 0, 0)], [5], [1 / 2], [1 / 2], some [1 / 2], none, none⟩]
    ⟨1, ((0 : ℚ) : WithTop ℚ), 1 / 2, 1 / 2⟩ (by decide)
    ⟨1, [(0, 0, 0)], [5], [1 / 2], [1 / 2], some [1 / 2], none, none⟩
    (by decide) 5 (by decide)

theorem fdrCore_getD_ge (sf : ℚ → ℚ) (zs : List ℚ) (k : ℕ)
    (hk : k < zs.length)
    (hmono : ∀ a b : ℚ, a ≤ b → sf b ≤ sf a)
    (hrange : ∀ x : ℚ, 0 ≤ sf x ∧ sf x ≤ 1)
    (hsorted : zs.Pairwise descRel) :
    sf (zs.getD k 0) ≤ (fdrCore sf zs).getD k 0 := by
  have hLlen : (List.zipWith (fun p d => min 1 (p / d)) (zs.map sf)
      (linspace (1 / (zs.length : ℚ)) 1 zs.length)).length = zs.length := by
    rw [List.length_zipWith, List.length_map, length_linspace, min_self]
  have hbound : ∀ j, k ≤ j → j < (List.zipWith (fun p d => min 1 (p / d))
      (zs.map sf) (linspace (1 / (zs.length : ℚ)) 1 zs.length)).length →
      sf (zs.getD k 0) ≤ (List.zipWith (fun p d => min 1 (p / d)) (zs.map sf)
        (linspace (1 / (zs.length : ℚ)) 1 zs.length)).getD j 0 := by
    intro j hkj hjL
    have hjz : j < zs.length := by rw [hLlen] at hjL; exact hjL
    rw [List.getD_eq_getElem _ _ hjL, List.getElem_zipWith]
    have hjm : j < (zs.map sf).length := by
      rw [List.length_map]
      exact hjz
    have hjlin : j < (linspace (1 / (zs.length : ℚ)) 1 zs.length).length := by
      rw [length_linspace]
      exact hjz
    have hmapj : (zs.map sf)[j] = sf zs[j] := List.getElem_map _
    have hdiv : (linspace (1 / (zs.length : ℚ)) 1 zs.length)[j] =
        ((j : ℚ) + 1) / (zs.length : ℚ) := by
      rw [← List.getD_eq_getElem _ 0 hjlin]
      exact linspace_div_getD _ j hjz
    rw [hmapj, hdiv]
    have hn0 : (0 : ℚ) < (zs.length : ℚ) := by
      have h0 : 0 < zs.length := by omega
      exact_mod_cast h0
    have hd0 : (0 : ℚ) < ((j : ℚ) + 1) / (zs.length : ℚ) := by
      apply div_pos _ hn0
      positivity
    have hd1 : ((j : ℚ) + 1) / (zs.length : ℚ) ≤ 1 := by
      rw [div_le_one hn0]
      have hj1 : j + 1 ≤ zs.length := by omega
      exact_mod_cast hj1
    apply le_min
    · exact (hrange _).2
    · rw [le_div_iff₀ hd0]
      have hjk : zs[j] ≤ zs.getD k 0 := by
        rcases eq_or_lt_of_le hkj with heq | hlt
        · subst heq
          rw [List.getD_eq_getElem _ _ hk]
        · rw [List.getD_eq_getElem _ _ hk]
          exact List.pairwise_iff_getElem.mp hsorted _ _ hk hjz hlt
      have h1 : sf (zs.getD k 0) ≤ sf zs[j] := hmono _ _ hjk
      calc sf (zs.getD k 0) * (((j : ℚ) + 1) / (zs.length : ℚ))
          ≤ sf (zs.getD k 0) * 1 :=
            mul_le_mul_of_nonneg_left hd1 (hrange _).1
        _ = sf (zs.getD k 0) := mul_one _
        _ ≤ sf zs[j] := h1
  simp only [fdrCore]
  exact le_suffixMin_getD _ _ _ (by rw [hLlen]; exact hk) hbound

/-- C10: the FDR-corrected p-values returned by `fdr_pvalues` never
undercut the uncorrected survival-function p-values elementwise, for any
survival function that is antitone with values in `[0, 1]` (as the
standard normal survival function is). -/
theorem fdr_pvalues_ge_sf (sf : ℚ → ℚ) (z : List ℚ) (i : ℕ)
    (hmono : ∀ a b : ℚ, a ≤ b → sf b ≤ sf a)
    (hrange : ∀ x : ℚ, 0 ≤ sf x ∧ sf x ≤ 1) (hi : i < z.length) :
    sf (z.getD i 0) ≤ (fdr_pvalues sf z).getD i 0 := by
  have hiMem : i ∈ argsortAsc (z.map Neg.neg) := by
    apply (argsortAsc_perm _).mem_iff.mpr
    simp [hi]
  have hkl : (argsortAsc (z.map Neg.neg)).indexOf i <
      (argsortAsc (z.map Neg.neg)).length :=
    List.indexOf_lt_length.mpr hiMem
  have hval : (fdr_pvalues sf z).getD i 0 =
      (fdrCore sf (sortDesc z)).getD
        ((argsortAsc (z.map Neg.neg)).indexOf i) 0 := by
    simp only [fdr_pvalues]
    rw [argsortAsc_map_getD]
    rw [List.getD_eq_getElem _ _ (by simpa using hi)]
    simp only [List.getElem_map, List.getElem_range]
  have hzi : (sortDesc z).getD ((argsortAsc (z.map Neg.neg)).indexOf i) 0 =
      z.getD i 0 := by
    rw [← argsortAsc_map_getD]
    rw [List.getD_eq_getElem _ _ (by rw [List.length_map]; exact hkl)]
    simp only [List.getElem_map]
    congr 1
    exact List.getElem_indexOf hkl
  have hklen : (argsortAsc (z.map Neg.neg)).indexOf i <
      (sortDesc z).length := by
    rw [length_sortDesc]
    rw [argsortAsc_length, List.length_map] at hkl
    exact hkl
  rw [hval, ← hzi]
  exact fdrCore_getD_ge sf (sortDesc z) _ hklen hmono hrange
    (sortDesc_pairwise z)

unseal Rat.add Rat.mul Rat.inv Rat.sub in
/-- Witness for C10 with the constant survival function `1/2`. -/
theorem fdr_pvalues_ge_sf_witness :
    halfSf (([3, 2] : List ℚ).getD 0 0) ≤
      (fdr_pvalues halfSf [3, 2]).getD 0 0 :=
  fdr_pvalues_ge_sf halfSf [3, 2] 0
    (fun _ _ _ => le_refl _)
    (fun _ => by constructor <;> norm_num [halfSf])
    (by decide)
